import Mathlib

/-
  Verification of the gomcpgo/email storage and caching engine.

  Shallow embedding of:
  - the CacheManager ledger (cache metadata, AddEntry, cleanup) from
    pkg/storage (cache.go / the unnamed storage source),
  - the account-folder migration planner and executor (DetectMigrations,
    ExecuteMigration, ScanExistingFolders, WriteAccountMetadata) from
    pkg/config,
  - the email content cache (LoadMetadata, generatePreview, ReadBody,
    readBodyFile, readFileChunk, generateCacheID, getEmailDir) from
    pkg/storage/email_cache.go, and the read_email_body tool handler.

  Conventions: Go time instants and durations are Int (nanoseconds);
  int64 sizes and offsets are Int; byte strings are List Nat.  Pure state
  passing replaces disk I/O: the ledger metadata file is threaded as a
  CacheMetadata value, the account root as an association list of folders,
  a cached message directory as an explicit record of its files.  A Go
  runtime panic (make with negative length) is modelled as an explicit
  outcome constructor.  Best-effort write-backs of converted HTML
  (fire-and-forget os.WriteFile calls whose failure is ignored and whose
  result no claim observes) are elided from the read paths.
-/

namespace EmailMCP

/-! ## CacheManager ledger (storage, cache metadata) -/

/-- One ledger entry, mirroring the Go CacheEntry yaml record. -/
structure CacheEntry where
  id : String
  entryType : String
  size : Int
  cachedAt : Int
  accessedAt : Int
  filePath : String
deriving DecidableEq

/-- The ledger file contents, mirroring the Go CacheMetadata yaml record. -/
structure CacheMetadata where
  version : Int
  totalSize : Int
  entries : List CacheEntry
deriving DecidableEq

/-- Manager configuration: maxSize bytes, maxAge nanoseconds. -/
structure CacheManager where
  maxSize : Int
  maxAge : Int
deriving DecidableEq

/-- Sum of entry sizes. -/
def sumSizes : List CacheEntry → Int
  | [] => 0
  | e :: rest => e.size + sumSizes rest

/-- The first cleanup loop: split entries into (kept, total kept size,
removed file paths); an entry is kept when its age is under maxAge
(`age < cm.maxAge` in the Go code), otherwise its file is removed. -/
def ageSplit (now maxAge : Int) : List CacheEntry → List CacheEntry × Int × List String
  | [] => ([], 0, [])
  | e :: rest =>
    let a := ageSplit now maxAge rest
    if now - e.cachedAt < maxAge then (e :: a.1, a.2.1 + e.size, a.2.2)
    else (a.1, a.2.1, e.filePath :: a.2.2)

/-- The sort order of the size sweep: cachedAt ascending. -/
def byCachedAt (a b : CacheEntry) : Prop := a.cachedAt ≤ b.cachedAt

instance : DecidableRel byCachedAt := fun a b => Int.decLe a.cachedAt b.cachedAt

instance : IsTotal CacheEntry byCachedAt := ⟨fun a b => Int.le_total a.cachedAt b.cachedAt⟩

instance : IsTrans CacheEntry byCachedAt := ⟨fun _ _ _ h1 h2 => Int.le_trans h1 h2⟩

/-- Sort by cachedAt ascending (the Go sort.Slice on CachedAt.Before). -/
def sortByCachedAt (l : List CacheEntry) : List CacheEntry :=
  List.insertionSort byCachedAt l

/-- The second cleanup loop: while totalSize > maxSize and entries remain,
pop the front entry, subtract its size and remove its file.  Returns
(final total, remaining entries, removed file paths). -/
def sizeSweepLoop (maxSize : Int) : Int → List CacheEntry → Int × List CacheEntry × List String
  | total, [] => (total, [], [])
  | total, e :: rest =>
    if maxSize < total then
      let s := sizeSweepLoop maxSize (total - e.size) rest
      (s.1, s.2.1, e.filePath :: s.2.2)
    else (total, e :: rest, [])

/-- The Go cleanup: age sweep, then (when still over the limit) sort the
survivors by cachedAt ascending and pop from the front.  Returns the new
metadata and the removed backing file paths in removal order. -/
def cleanup (cm : CacheManager) (now : Int) (md : CacheMetadata) : CacheMetadata × List String :=
  if cm.maxSize < (ageSplit now cm.maxAge md.entries).2.1 then
    ({ md with
        entries := (sizeSweepLoop cm.maxSize (ageSplit now cm.maxAge md.entries).2.1
          (sortByCachedAt (ageSplit now cm.maxAge md.entries).1)).2.1,
        totalSize := (sizeSweepLoop cm.maxSize (ageSplit now cm.maxAge md.entries).2.1
          (sortByCachedAt (ageSplit now cm.maxAge md.entries).1)).1 },
     (ageSplit now cm.maxAge md.entries).2.2 ++
       (sizeSweepLoop cm.maxSize (ageSplit now cm.maxAge md.entries).2.1
         (sortByCachedAt (ageSplit now cm.maxAge md.entries).1)).2.2)
  else
    ({ md with
        entries := (ageSplit now cm.maxAge md.entries).1,
        totalSize := (ageSplit now cm.maxAge md.entries).2.1 },
     (ageSplit now cm.maxAge md.entries).2.2)

/-- The existing-entry scan inside AddEntry: refresh accessedAt of the first
entry with the given id; none when the id is absent. -/
def touchEntries (id : String) (now : Int) : List CacheEntry → Option (List CacheEntry)
  | [] => none
  | e :: rest =>
    if e.id = id then some ({ e with accessedAt := now } :: rest)
    else (touchEntries id now rest).map (e :: ·)

/-- The Go AddEntry on a loaded metadata value: touch an existing id, or
append a new entry, bump totalSize, and run cleanup when over maxSize.
The returned value is what SaveMetadata persists. -/
def addEntry (cm : CacheManager) (now : Int) (md : CacheMetadata)
    (id entryType filePath : String) (size : Int) : CacheMetadata :=
  match touchEntries id now md.entries with
  | some es => { md with entries := es }
  | none =>
    let e : CacheEntry :=
      { id := id, entryType := entryType, size := size,
        cachedAt := now, accessedAt := now, filePath := filePath }
    let md2 : CacheMetadata :=
      { md with entries := md.entries ++ [e], totalSize := md.totalSize + size }
    if cm.maxSize < md2.totalSize then (cleanup cm now md2).1 else md2

/-- One add_or_touch call record. -/
structure AddOp where
  id : String
  entryType : String
  filePath : String
  size : Int
  now : Int
deriving DecidableEq

/-- Run a sequence of AddEntry calls, threading the persisted metadata. -/
def runOps (cm : CacheManager) : CacheMetadata → List AddOp → CacheMetadata
  | md, [] => md
  | md, op :: rest => runOps cm (addEntry cm op.now md op.id op.entryType op.filePath op.size) rest

/-- LoadMetadata on a missing metadata file. -/
def emptyMetadata : CacheMetadata := { version := 1, totalSize := 0, entries := [] }

/-! ## Account identity and migration (config) -/

/-- The per-folder metadata.yaml record. -/
structure AccountMetadata where
  accountID : String
  emailAddress : String
  createdAt : Int
  updatedAt : Int
deriving DecidableEq

/-- First-match association-list lookup (a Go map read). -/
def alookup {α : Type} (k : String) : List (String × α) → Option α
  | [] => none
  | (k2, v) :: rest => if k2 = k then some v else alookup k rest

/-- The matching-account search in DetectMigrations: first configured
account id whose email equals the target. -/
def findByEmail (email : String) : List (String × String) → Option String
  | [] => none
  | (id, em) :: rest => if em = email then some id else findByEmail email rest

/-- The scanned folders, folder name to identity record. -/
abbrev FolderMap := List (String × AccountMetadata)

/-- emailToFolders for one email: folder names whose record has that email. -/
def foldersWithEmail (email : String) : FolderMap → List String
  | [] => []
  | (n, md) :: rest =>
    if md.emailAddress = email then n :: foldersWithEmail email rest
    else foldersWithEmail email rest

/-- One iteration of the newest-folder loop: replace the accumulator when
the sharer has a strictly later updatedAt (UpdatedAt.After). -/
def nextNewest (folders : FolderMap) (name : String) (acc : String × Int) : String × Int :=
  match alookup name folders with
  | some om => if acc.2 < om.updatedAt then (name, om.updatedAt) else acc
  | none => acc

/-- The newest-folder fold of the conflict rule. -/
def newestFolder (folders : FolderMap) : List String → String × Int → String × Int
  | [], acc => acc
  | name :: rest, acc => newestFolder folders rest (nextNewest folders name acc)

/-- A detected migration, mirroring the Go MigrationPlan. -/
structure MigrationPlan where
  oldFolderName : String
  newAccountID : String
  emailAddress : String
  metadata : AccountMetadata
deriving DecidableEq

/-- The per-folder body of the DetectMigrations loop. -/
def folderPlan (folders : FolderMap) (accounts : List (String × String))
    (folderName : String) (md : AccountMetadata) : Option MigrationPlan :=
  if folderName = md.accountID ∧ alookup md.accountID accounts = some md.emailAddress then
    none
  else
    match findByEmail md.emailAddress accounts with
    | none => none
    | some matching =>
      if matching = folderName then none
      else
        if 1 < (foldersWithEmail md.emailAddress folders).length then
          if folderName =
              (newestFolder folders (foldersWithEmail md.emailAddress folders)
                (folderName, md.updatedAt)).1 then
            some ⟨folderName, matching, md.emailAddress, md⟩
          else none
        else some ⟨folderName, matching, md.emailAddress, md⟩

/-- Collect the plans of a folder list. -/
def detectMigrationsAux (allFolders : FolderMap) (accounts : List (String × String)) :
    FolderMap → List MigrationPlan
  | [] => []
  | (n, md) :: rest =>
    match folderPlan allFolders accounts n md with
    | some p => p :: detectMigrationsAux allFolders accounts rest
    | none => detectMigrationsAux allFolders accounts rest

/-- DetectMigrations over scanned folders and the configured id-to-email map. -/
def detectMigrations (folders : FolderMap) (accounts : List (String × String)) :
    List MigrationPlan :=
  detectMigrationsAux folders accounts folders

/-- An on-disk account folder: its metadata.yaml (none when absent or
invalid) and its other contents, abstracted as names. -/
structure Folder where
  meta : Option AccountMetadata
  files : List String
deriving DecidableEq

/-- The account root: folder name to folder. -/
abbrev Fs := List (String × Folder)

/-- ScanExistingFolders: keep directories with a valid identity record. -/
def scanExistingFolders : Fs → FolderMap
  | [] => []
  | (n, f) :: rest =>
    match f.meta with
    | some m => (n, m) :: scanExistingFolders rest
    | none => scanExistingFolders rest

/-- Remove the first folder with the given name. -/
def fsRemove (name : String) : Fs → Fs
  | [] => []
  | (n, f) :: rest => if n = name then rest else (n, f) :: fsRemove name rest

/-- os.Stat existence check on a folder. -/
def fsHas (fs : Fs) (name : String) : Bool := (alookup name fs).isSome

/-- Rewrite the metadata of the first folder with the given name. -/
def fsSetMeta (name : String) (m : AccountMetadata) : Fs → Fs
  | [] => []
  | (n, f) :: rest =>
    if n = name then (n, { f with meta := some m }) :: rest
    else (n, f) :: fsSetMeta name m rest

/-- WriteAccountMetadata: fresh record with updatedAt = now, preserving a
pre-existing nonzero createdAt. -/
def writeAccountMetadata (now : Int) (accountID email : String)
    (oldMeta : Option AccountMetadata) : AccountMetadata :=
  { accountID := accountID, emailAddress := email,
    createdAt :=
      match oldMeta with
      | some m => if m.createdAt = 0 then now else m.createdAt
      | none => now,
    updatedAt := now }

/-- ExecuteMigration failure causes. -/
inductive MigError where
  | sourceMissing (path : String)
  | destExists (path : String)
deriving DecidableEq

/-- ExecuteMigration: check source exists and destination does not, rename
the folder, then rewrite its identity record.  Returns the error (if any)
and the resulting filesystem; the precondition checks precede any
mutation, so on error the filesystem is returned as received. -/
def executeMigration (fs : Fs) (now : Int) (plan : MigrationPlan) : Option MigError × Fs :=
  match alookup plan.oldFolderName fs with
  | none => (some (.sourceMissing plan.oldFolderName), fs)
  | some f =>
    if fsHas fs plan.newAccountID then (some (.destExists plan.newAccountID), fs)
    else
      let fs1 := fsRemove plan.oldFolderName fs ++ [(plan.newAccountID, f)]
      let newMeta := writeAccountMetadata now plan.newAccountID plan.emailAddress f.meta
      (none, fsSetMeta plan.newAccountID newMeta fs1)

/-! ## Email content cache (email_cache.go) -/

/-- Outcome of readFileChunk: the returned bytes, or the Go runtime panic
raised by make with a negative length. -/
inductive ChunkOutcome where
  | ok (content : List Nat)
  | panicked
deriving DecidableEq

/-- readFileChunk on a file of the given bytes: with a negative limit the
buffer allocation panics; the seek happens only when offset > 0 (so a
negative offset reads from position 0); reading past the end yields io.EOF
which the code treats as success with the bytes actually read. -/
def readFileChunk (file : List Nat) (offset limit : Int) : ChunkOutcome :=
  if limit < 0 then .panicked
  else .ok ((file.drop (if 0 < offset then offset else 0).toNat).take limit.toNat)

/-- The chunk-read response record. -/
structure ReadBodyResult where
  content : List Nat
  format : String
  source : String
  totalSize : Int
  offset : Int
  limit : Int
  remaining : Int
  isComplete : Bool
deriving DecidableEq

/-- Outcome of a body read: a response, or a propagated panic. -/
inductive ReadOutcome where
  | ok (r : ReadBodyResult)
  | panicked
deriving DecidableEq

/-- The clamp in readBodyFile: if remaining < 0 then remaining = 0. -/
def clampNeg (x : Int) : Int := if x < 0 then 0 else x

/-- readBodyFile: read the chunk, clamp remaining at 0, flag completion. -/
def readBodyFile (file : List Nat) (format source : String)
    (totalSize offset limit : Int) : ReadOutcome :=
  match readFileChunk file offset limit with
  | .panicked => .panicked
  | .ok content =>
    .ok { content := content, format := format, source := source,
          totalSize := totalSize, offset := offset, limit := limit,
          remaining := clampNeg (totalSize - offset - (content.length : Int)),
          isComplete :=
            decide (clampNeg (totalSize - offset - (content.length : Int)) = 0) }

/-- The byte range [a, b) of a file, as the spec phrases chunk contents. -/
def byteSlice (file : List Nat) (a b : Int) : List Nat :=
  (file.take b.toNat).drop a.toNat

/-- The chunked-read iteration of the spec: read at the offset, stop when
is_complete, else advance by the returned length.  Fuel-bounded; none
means the fuel ran out before completion. -/
def readLoop (file : List Nat) (L : Int) : Nat → Nat → Option (List (List Nat))
  | 0, _ => none
  | fuel + 1, o =>
    match readBodyFile file "text" "text_body" (file.length : Int) (o : Int) L with
    | .panicked => none
    | .ok r =>
      if r.isComplete then some [r.content]
      else
        match readLoop file L fuel (o + r.content.length) with
        | some rest => some (r.content :: rest)
        | none => none

/-- The cached message metadata record (the fields the storage logic reads). -/
structure CachedEmailMetadata where
  messageID : String
  cachedAt : Int
  textBodySize : Int
  htmlBodySize : Int
  convertedTextSize : Int
deriving DecidableEq

/-- CacheExpiry = 96 hours, in nanoseconds. -/
def cacheExpiry : Int := 96 * 3600 * 1000000000

/-- The distinct failure causes of LoadMetadata. -/
inductive CacheErr where
  | notInCache
  | expired
deriving DecidableEq

/-- One cached message directory: the metadata.yaml contents (none when
the file is absent) and the body files. -/
structure EmailDirState where
  metaFile : Option CachedEmailMetadata
  textBody : List Nat
  htmlBody : List Nat
  convertedBody : List Nat
deriving DecidableEq

/-- LoadMetadata: absent file is not-in-cache; a record whose age exceeds
CacheExpiry is reported expired even though the files remain. -/
def loadMetadata (stored : Option CachedEmailMetadata) (now : Int) :
    Except CacheErr CachedEmailMetadata :=
  match stored with
  | none => .error .notInCache
  | some md => if cacheExpiry < now - md.cachedAt then .error .expired else .ok md

/-- generatePreview: prefix of the best available text, priority
text body, converted text, on-the-fly HTML conversion (h2t is the
HTML-to-text collaborator; the opportunistic write-back is elided). -/
def generatePreview (h2t : List Nat → List Nat) (dir : EmailDirState)
    (md : CachedEmailMetadata) (maxLength : Int) : ChunkOutcome :=
  if 0 < md.textBodySize then readFileChunk dir.textBody 0 maxLength
  else if 0 < md.convertedTextSize then readFileChunk dir.convertedBody 0 maxLength
  else if 0 < md.htmlBodySize then
    let conv := h2t dir.htmlBody
    if maxLength < (conv.length : Int) then
      if maxLength < 0 then .panicked else .ok (conv.take maxLength.toNat)
    else .ok conv
  else .ok []

/-- The cache-info response (the body-related fields). -/
structure EmailCacheInfo where
  messageID : String
  textSize : Int
  htmlSize : Int
  hasText : Bool
  hasHTML : Bool
  preview : ChunkOutcome
deriving DecidableEq

/-- GetCacheInfo: load the metadata (propagating its failure), then build
the info with a preview. -/
def getCacheInfo (h2t : List Nat → List Nat) (dir : EmailDirState)
    (now previewLength : Int) : Except CacheErr EmailCacheInfo :=
  match loadMetadata dir.metaFile now with
  | .error e => .error e
  | .ok md =>
    .ok { messageID := md.messageID, textSize := md.textBodySize,
          htmlSize := md.htmlBodySize,
          hasText := 0 < md.textBodySize, hasHTML := 0 < md.htmlBodySize,
          preview := generatePreview h2t dir md previewLength }

/-- readText: plain-text-priority resolution (metadata write-back on the
on-the-fly conversion path elided). -/
def readText (h2t : List Nat → List Nat) (dir : EmailDirState)
    (md : CachedEmailMetadata) (offset limit : Int) : ReadOutcome :=
  if 0 < md.textBodySize then
    readBodyFile dir.textBody "text" "text_body" md.textBodySize offset limit
  else if 0 < md.convertedTextSize then
    readBodyFile dir.convertedBody "text" "html_converted" md.convertedTextSize offset limit
  else if 0 < md.htmlBodySize then
    let conv := h2t dir.htmlBody
    readBodyFile conv "text" "html_converted" (conv.length : Int) offset limit
  else
    .ok { content := [], format := "text", source := "none", totalSize := 0,
          offset := 0, limit := limit, remaining := 0, isComplete := true }

/-- readRawHTML: the raw HTML body directly. -/
def readRawHTML (dir : EmailDirState) (md : CachedEmailMetadata)
    (offset limit : Int) : ReadOutcome :=
  if md.htmlBodySize = 0 then
    .ok { content := [], format := "raw_html", source := "none", totalSize := 0,
          offset := 0, limit := limit, remaining := 0, isComplete := true }
  else
    readBodyFile dir.htmlBody "raw_html" "html_body" md.htmlBodySize offset limit

/-- ReadBody: load metadata (propagating its failure), then dispatch on
the requested format. -/
def readBody (h2t : List Nat → List Nat) (dir : EmailDirState) (now : Int)
    (format : String) (offset limit : Int) : Except CacheErr ReadOutcome :=
  match loadMetadata dir.metaFile now with
  | .error e => .error e
  | .ok md =>
    .ok (if format = "raw_html" then readRawHTML dir md offset limit
         else readText h2t dir md offset limit)

/-- IsCached: metadata loads without error. -/
def isCached (dir : EmailDirState) (now : Int) : Bool :=
  match loadMetadata dir.metaFile now with
  | .ok _ => true
  | .error _ => false

/-- What the read_email_body handler hands back: a result, a Go error
response, or a crash of the process. -/
inductive HandlerOutcome where
  | ok (r : ReadBodyResult)
  | errorResp (msg : String)
  | panicked
deriving DecidableEq

/-- handleReadEmailBody: validates only the format, checks IsCached, then
calls ReadBody with the offset and limit exactly as received. -/
def handleReadEmailBody (h2t : List Nat → List Nat) (dir : EmailDirState)
    (now : Int) (format : String) (offset limit : Int) : HandlerOutcome :=
  if ¬ (format = "text" ∨ format = "raw_html") then .errorResp "invalid format"
  else if ¬ (isCached dir now) then .errorResp "email not in cache"
  else
    match readBody h2t dir now format offset limit with
    | .error _ => .errorResp "failed to read email body"
    | .ok .panicked => .panicked
    | .ok (.ok r) => .ok r

/-! ## Cache id derivation (generateCacheID, getEmailDir) -/

/-- strings.Trim: drop the cutset characters from both ends. -/
def goTrimChars (cut : List Char) (s : List Char) : List Char :=
  ((s.dropWhile cut.contains).reverse.dropWhile cut.contains).reverse

/-- strings.ReplaceAll for a single-character pattern. -/
def replaceChar (c : Char) (rep : List Char) : List Char → List Char
  | [] => []
  | x :: xs => (if x = c then rep else [x]) ++ replaceChar c rep xs

/-- generateCacheID: trim angle brackets, replace at-sign, dot and both
slashes, and fall back to a hash of the original id when the cleaned form
is longer than 50; the hash function is a parameter (md5 hex). -/
def generateCacheID (md5hex : String → String) (messageID : String) : String :=
  let clean := goTrimChars ['<', '>'] messageID.toList
  let clean := replaceChar '@' ['_', 'a', 't', '_'] clean
  let clean := replaceChar '.' ['_'] clean
  let clean := replaceChar '/' ['_'] clean
  let clean := replaceChar '\\' ['_'] clean
  if 50 < clean.length then md5hex messageID else String.mk clean

/-- getEmailDir: the per-message directory under the email cache dir. -/
def getEmailDir (md5hex : String → String) (cacheDir messageID : String) : String :=
  cacheDir ++ "/" ++ generateCacheID md5hex messageID

/-- The metadata.yaml path of a cached message. -/
def emailMetadataPath (md5hex : String → String) (cacheDir messageID : String) : String :=
  getEmailDir md5hex cacheDir messageID ++ "/metadata.yaml"

/-- A flat path-to-contents store; a write shadows previous contents. -/
def fsWrite (path content : String) (store : List (String × String)) :
    List (String × String) :=
  (path, content) :: store

/-- Read a path from the store (most recent write wins). -/
def fsReadPath (store : List (String × String)) (path : String) : Option String :=
  alookup path store

/-- The metadata write SaveEmail performs for a message. -/
def saveEmailMetaFile (md5hex : String → String) (cacheDir messageID content : String)
    (store : List (String × String)) : List (String × String) :=
  fsWrite (emailMetadataPath md5hex cacheDir messageID) content store

/-! ## Claim-side shorthand -/

/-- Entries whose age is under maxAge (survivors of the age sweep). -/
def freshEntries (cm : CacheManager) (now : Int) (md : CacheMetadata) : List CacheEntry :=
  md.entries.filter (fun e => decide (now - e.cachedAt < cm.maxAge))

/-- Entries whose age is at least maxAge (removed by the age sweep). -/
def staleEntries (cm : CacheManager) (now : Int) (md : CacheMetadata) : List CacheEntry :=
  md.entries.filter (fun e => decide (cm.maxAge ≤ now - e.cachedAt))

/-! ## Fixtures for witnesses and counterexamples -/

/-- A ledger manager with maxSize 100 bytes and maxAge 100 ns. -/
def cmAge : CacheManager := { maxSize := 100, maxAge := 100 }

/-- Entry aged past maxAge at time 1000. -/
def entryB1 : CacheEntry :=
  { id := "b1", entryType := "email", size := 100, cachedAt := 890, accessedAt := 890, filePath := "/b1" }

/-- Entry aged exactly maxAge at time 1000. -/
def entryB2 : CacheEntry :=
  { id := "b2", entryType := "email", size := 5, cachedAt := 900, accessedAt := 900, filePath := "/b2" }

/-- Fresh entry at time 1000. -/
def entryE3 : CacheEntry :=
  { id := "e3", entryType := "email", size := 50, cachedAt := 1000, accessedAt := 1000, filePath := "/e3" }

/-- Over-limit ledger holding the three entries above. -/
def mdAge : CacheMetadata := { version := 1, totalSize := 155, entries := [entryB1, entryB2, entryE3] }

/-- A ledger manager with maxSize 10 bytes. -/
def cmTouch : CacheManager := { maxSize := 10, maxAge := 1000000 }

/-- A ledger whose single entry already exceeds maxSize. -/
def mdTouch : CacheMetadata :=
  { version := 1, totalSize := 20,
    entries := [{ id := "a", entryType := "email", size := 20, cachedAt := 0, accessedAt := 0, filePath := "/a" }] }

/-- Identity record of a folder named Business. -/
def metaBusiness : AccountMetadata :=
  { accountID := "Business", emailAddress := "x@y.com", createdAt := 1, updatedAt := 2 }

/-- An account root holding only the Business folder. -/
def fsBusiness : Fs := [("Business", { meta := some metaBusiness, files := ["drafts"] })]

/-- Configuration mapping Operations to the Business email. -/
def accountsOps : List (String × String) := [("Operations", "x@y.com")]

/-- The plan the planner emits for fsBusiness under accountsOps. -/
def planOps : MigrationPlan := ⟨"Business", "Operations", "x@y.com", metaBusiness⟩

/-- Identity record of a Business folder in the conflict scenario. -/
def metaBiz : AccountMetadata :=
  { accountID := "Business", emailAddress := "x@y.com", createdAt := 0, updatedAt := 5 }

/-- Identity record of a Business_Old folder updated later. -/
def metaBizOld : AccountMetadata :=
  { accountID := "Business_Old", emailAddress := "x@y.com", createdAt := 0, updatedAt := 9 }

/-- Two scanned folders sharing one email, Business_Old newest. -/
def foldersConflict : FolderMap := [("Business", metaBiz), ("Business_Old", metaBizOld)]

/-- Records of two folders sharing one email with tied updatedAt. -/
def metaTieF1 : AccountMetadata :=
  { accountID := "F1", emailAddress := "x", createdAt := 0, updatedAt := 5 }

/-- Second record of the tie. -/
def metaTieF2 : AccountMetadata :=
  { accountID := "F2", emailAddress := "x", createdAt := 0, updatedAt := 5 }

/-- Scanned folders for the tie scenario. -/
def foldersTie : FolderMap := [("F1", metaTieF1), ("F2", metaTieF2)]

/-- Configuration for the tie scenario. -/
def accountsTie : List (String × String) := [("NEW", "x")]

/-- A message directory whose record was cached at time 0; its body files
are still present. -/
def dirExpired : EmailDirState :=
  { metaFile := some { messageID := "m2", cachedAt := 0, textBodySize := 3,
                       htmlBodySize := 0, convertedTextSize := 0 },
    textBody := [1, 2, 3], htmlBody := [], convertedBody := [] }

/-- A cached, unexpired message directory with a 3-byte text body. -/
def dirText : EmailDirState :=
  { metaFile := some { messageID := "m1", cachedAt := 0, textBodySize := 3,
                       htmlBodySize := 0, convertedTextSize := 0 },
    textBody := [1, 2, 3], htmlBody := [], convertedBody := [] }

/-! ## Ledger lemmas -/

theorem sumSizes_append (l1 l2 : List CacheEntry) :
    sumSizes (l1 ++ l2) = sumSizes l1 + sumSizes l2 := by
  induction l1 with
  | nil => simp [sumSizes]
  | cons e rest ih => simp [sumSizes, ih]; ring

theorem sumSizes_eq_sum (l : List CacheEntry) :
    sumSizes l = (l.map (·.size)).sum := by
  induction l with
  | nil => rfl
  | cons e rest ih => simp [sumSizes, ih]

theorem sumSizes_perm {l1 l2 : List CacheEntry} (h : List.Perm l1 l2) :
    sumSizes l1 = sumSizes l2 := by
  rw [sumSizes_eq_sum, sumSizes_eq_sum]
  exact (h.map (·.size)).sum_eq

theorem ageSplit_fst (now ma : Int) (l : List CacheEntry) :
    (ageSplit now ma l).1 = l.filter (fun e => decide (now - e.cachedAt < ma)) := by
  induction l with
  | nil => rfl
  | cons e rest ih =>
    by_cases h : now - e.cachedAt < ma
    · simp [ageSplit, List.filter_cons, h, ih]
    · simp [ageSplit, List.filter_cons, h, ih]

theorem ageSplit_total (now ma : Int) (l : List CacheEntry) :
    (ageSplit now ma l).2.1 = sumSizes (ageSplit now ma l).1 := by
  induction l with
  | nil => rfl
  | cons e rest ih =>
    by_cases h : now - e.cachedAt < ma
    · simp [ageSplit, h, sumSizes, ih]; ring
    · simp [ageSplit, h, ih]

theorem ageSplit_removed (now ma : Int) (l : List CacheEntry) :
    (ageSplit now ma l).2.2 =
      (l.filter (fun e => decide (ma ≤ now - e.cachedAt))).map (·.filePath) := by
  induction l with
  | nil => rfl
  | cons e rest ih =>
    by_cases h : now - e.cachedAt < ma
    · have h2 : ¬ ma ≤ now - e.cachedAt := by omega
      simp [ageSplit, List.filter_cons, h, h2, ih]
    · have h2 : ma ≤ now - e.cachedAt := by omega
      simp [ageSplit, List.filter_cons, h, h2, ih]

theorem sizeSweepLoop_spec (maxSize : Int) (entries : List CacheEntry) :
    ∀ total : Int, total = sumSizes entries →
    ∃ k, k ≤ entries.length ∧
      sizeSweepLoop maxSize total entries =
        (sumSizes (entries.drop k), entries.drop k, (entries.take k).map (·.filePath)) ∧
      (∀ j, j < k → maxSize < sumSizes (entries.drop j)) ∧
      (sumSizes (entries.drop k) ≤ maxSize ∨ k = entries.length) := by
  induction entries with
  | nil =>
    intro total htot
    refine ⟨0, by simp, ?_, by omega, by simp⟩
    simp [sizeSweepLoop, htot]
  | cons e rest ih =>
    intro total htot
    by_cases hover : maxSize < total
    · obtain ⟨k, hk, heq, hover2, hstop⟩ := ih (total - e.size) (by simp [sumSizes] at htot; omega)
      refine ⟨k + 1, by simpa using Nat.succ_le_succ hk, ?_, ?_, ?_⟩
      · simp only [sizeSweepLoop, if_pos hover, heq, List.drop_succ_cons, List.take_succ_cons,
          List.map_cons]
      · intro j hj
        cases j with
        | zero => simpa [htot] using hover
        | succ j2 => simpa using hover2 j2 (by omega)
      · simpa using hstop
    · refine ⟨0, by simp, ?_, by omega, ?_⟩
      · simp only [sizeSweepLoop, if_neg hover, List.drop_zero, List.take_zero, List.map_nil]
        rw [htot]
      · rw [List.drop_zero]
        exact Or.inl (by rw [← htot]; exact not_lt.mp hover)

theorem cleanup_fst_entries_inv (cm : CacheManager) (now : Int) (md : CacheMetadata) :
    ((cleanup cm now md).1).totalSize = sumSizes ((cleanup cm now md).1).entries := by
  unfold cleanup
  by_cases hover : cm.maxSize < (ageSplit now cm.maxAge md.entries).2.1
  · obtain ⟨k, _, heq, _, _⟩ :=
      sizeSweepLoop_spec cm.maxSize (sortByCachedAt (ageSplit now cm.maxAge md.entries).1)
        (ageSplit now cm.maxAge md.entries).2.1
        ((ageSplit_total now cm.maxAge md.entries).trans
          (sumSizes_perm (List.perm_insertionSort byCachedAt _)).symm)
    rw [if_pos hover, heq]
  · rw [if_neg hover]
    exact ageSplit_total now cm.maxAge md.entries

theorem cleanup_totalSize_le (cm : CacheManager) (now : Int) (md : CacheMetadata)
    (hmax : 0 ≤ cm.maxSize) :
    ((cleanup cm now md).1).totalSize ≤ cm.maxSize := by
  unfold cleanup
  by_cases hover : cm.maxSize < (ageSplit now cm.maxAge md.entries).2.1
  · obtain ⟨k, _, heq, _, hstop⟩ :=
      sizeSweepLoop_spec cm.maxSize (sortByCachedAt (ageSplit now cm.maxAge md.entries).1)
        (ageSplit now cm.maxAge md.entries).2.1
        ((ageSplit_total now cm.maxAge md.entries).trans
          (sumSizes_perm (List.perm_insertionSort byCachedAt _)).symm)
    rcases hstop with hle | hall
    · rw [if_pos hover, heq]
      exact hle
    · rw [if_pos hover, heq]
      show sumSizes (List.drop k _) ≤ cm.maxSize
      rw [hall, List.drop_length]
      simpa [sumSizes] using hmax
  · rw [if_neg hover]
    show (ageSplit now cm.maxAge md.entries).2.1 ≤ cm.maxSize
    omega

theorem touchEntries_none_iff (id : String) (now : Int) (l : List CacheEntry) :
    touchEntries id now l = none ↔ ∀ e ∈ l, e.id ≠ id := by
  induction l with
  | nil => simp [touchEntries]
  | cons e rest ih =>
    simp only [touchEntries]
    by_cases h : e.id = id
    · simp [h]
    · simp only [if_neg h]
      constructor
      · intro hnone
        have hrest2 : touchEntries id now rest = none := by
          cases hrest : touchEntries id now rest with
          | none => rfl
          | some _ => simp [hrest] at hnone
        intro x hx
        rw [List.mem_cons] at hx
        rcases hx with hx | hx
        · simpa [hx] using h
        · exact (ih.mp hrest2) x hx
      · intro hall
        have hrest2 : touchEntries id now rest = none :=
          ih.mpr (fun x hx => hall x (List.mem_cons_of_mem e hx))
        simp [hrest2]

theorem touchEntries_sumSizes (id : String) (now : Int) (l : List CacheEntry) :
    ∀ l2, touchEntries id now l = some l2 → sumSizes l2 = sumSizes l := by
  induction l with
  | nil => intro l2 h; simp [touchEntries] at h
  | cons e rest ih =>
    intro l2 h
    simp only [touchEntries] at h
    by_cases hid : e.id = id
    · simp only [if_pos hid, Option.some_inj] at h
      subst h; simp [sumSizes]
    · simp only [if_neg hid] at h
      cases hrest : touchEntries id now rest with
      | none => simp [hrest] at h
      | some l3 =>
        rw [hrest] at h
        simp only [Option.map_some', Option.some_inj] at h
        subst h
        simp [sumSizes, ih l3 hrest]

theorem addEntry_totalSize_inv (cm : CacheManager) (now : Int) (md : CacheMetadata)
    (id etype path : String) (size : Int)
    (hinv : md.totalSize = sumSizes md.entries) :
    (addEntry cm now md id etype path size).totalSize =
      sumSizes (addEntry cm now md id etype path size).entries := by
  unfold addEntry
  cases htouch : touchEntries id now md.entries with
  | some es => simpa [hinv] using (touchEntries_sumSizes id now md.entries es htouch).symm
  | none =>
    simp only []
    split
    · exact cleanup_fst_entries_inv cm now _
    · simp [sumSizes_append, sumSizes, hinv]

/-! ## Claim C1: the eviction pass -/

/-- C1 (amended): an eviction pass keeps exactly the entries whose age is
under max_age (so it removes those aged at least max_age, deleting their
files), and when the survivors still exceed max_size it removes them in
ascending created_at order from the front of the sorted survivor list,
stopping as soon as the total fits or no entries remain; the sorted list
is ordered by cachedAt and is a permutation of the survivors. -/
theorem cleanup_two_phase (cm : CacheManager) (now : Int) (md : CacheMetadata) :
    List.Sorted byCachedAt (sortByCachedAt (freshEntries cm now md)) ∧
    List.Perm (sortByCachedAt (freshEntries cm now md)) (freshEntries cm now md) ∧
    (sumSizes (freshEntries cm now md) ≤ cm.maxSize →
      cleanup cm now md =
        ({ md with
            entries := freshEntries cm now md,
            totalSize := sumSizes (freshEntries cm now md) },
         (staleEntries cm now md).map (·.filePath))) ∧
    (cm.maxSize < sumSizes (freshEntries cm now md) →
      ∃ k, k ≤ (sortByCachedAt (freshEntries cm now md)).length ∧
        cleanup cm now md =
          ({ md with
              entries := (sortByCachedAt (freshEntries cm now md)).drop k,
              totalSize := sumSizes ((sortByCachedAt (freshEntries cm now md)).drop k) },
           (staleEntries cm now md).map (·.filePath) ++
             ((sortByCachedAt (freshEntries cm now md)).take k).map (·.filePath)) ∧
        (∀ j, j < k → cm.maxSize < sumSizes ((sortByCachedAt (freshEntries cm now md)).drop j)) ∧
        (sumSizes ((sortByCachedAt (freshEntries cm now md)).drop k) ≤ cm.maxSize ∨
          k = (sortByCachedAt (freshEntries cm now md)).length)) := by
  have hA1 : (ageSplit now cm.maxAge md.entries).1 = freshEntries cm now md :=
    ageSplit_fst now cm.maxAge md.entries
  have hA2 : (ageSplit now cm.maxAge md.entries).2.1 = sumSizes (freshEntries cm now md) := by
    rw [ageSplit_total now cm.maxAge md.entries, hA1]
  have hA3 : (ageSplit now cm.maxAge md.entries).2.2 =
      (staleEntries cm now md).map (·.filePath) :=
    ageSplit_removed now cm.maxAge md.entries
  refine ⟨List.sorted_insertionSort byCachedAt _, List.perm_insertionSort byCachedAt _, ?_, ?_⟩
  · intro hle
    have hcond : ¬ cm.maxSize < (ageSplit now cm.maxAge md.entries).2.1 := by
      rw [hA2]; exact not_lt.mpr hle
    unfold cleanup
    rw [if_neg hcond, hA1, hA2, hA3]
  · intro hover
    obtain ⟨k, hk, heq, hj, hstop⟩ :=
      sizeSweepLoop_spec cm.maxSize (sortByCachedAt (freshEntries cm now md))
        (ageSplit now cm.maxAge md.entries).2.1
        (hA2.trans (sumSizes_perm (List.perm_insertionSort byCachedAt _)).symm)
    refine ⟨k, hk, ?_, hj, hstop⟩
    have hcond : cm.maxSize < (ageSplit now cm.maxAge md.entries).2.1 := by
      rw [hA2]; exact hover
    unfold cleanup
    rw [if_pos hcond, hA1, heq, hA3]

/-- C1 witness: on the concrete over-limit ledger mdAge at time 1000 the
age sweep leaves entries totalling 55 within the 100-byte bound, and the
pass result matches the two-phase description. -/
theorem cleanup_two_phase_witness :
    sumSizes (freshEntries cmAge 1000 mdAge) ≤ cmAge.maxSize ∧
    cleanup cmAge 1000 mdAge =
      ({ mdAge with
          entries := freshEntries cmAge 1000 mdAge,
          totalSize := sumSizes (freshEntries cmAge 1000 mdAge) },
       (staleEntries cmAge 1000 mdAge).map (·.filePath)) :=
  ⟨by decide, (cleanup_two_phase cmAge 1000 mdAge).2.2.1 (by decide)⟩

/-- C1 counterexample: entry b2 is aged exactly max_age at time 1000, so
its age does not exceed max_age, and the entries whose age does not exceed
max_age total 55 which fits under max_size 100 (so the claimed size sweep
would remove nothing); yet the pass removes b2 and deletes its file. -/
theorem cleanup_age_exceeds_cex :
    entryB2 ∈ mdAge.entries ∧
    ¬ (cmAge.maxAge < 1000 - entryB2.cachedAt) ∧
    sumSizes (mdAge.entries.filter (fun e => decide (¬ (cmAge.maxAge < 1000 - e.cachedAt)))) ≤
      cmAge.maxSize ∧
    entryB2 ∉ ((cleanup cmAge 1000 mdAge).1).entries ∧
    entryB2.filePath ∈ (cleanup cmAge 1000 mdAge).2 := by
  decide

/-! ## Claim C2: AddEntry persistence bound -/

/-- C2 (amended): only the append branch of AddEntry runs an eviction pass
(and it does so before persisting): when the id is fresh and max_size is
nonnegative the persisted total_size is at most max_size, while the
refresh branch persists the loaded total_size unchanged, with no eviction
even if it already exceeds max_size. -/
theorem addEntry_eviction_bound (cm : CacheManager) (now : Int) (md : CacheMetadata)
    (id etype path : String) (size : Int) :
    ((∀ e ∈ md.entries, e.id ≠ id) → 0 ≤ cm.maxSize →
      (addEntry cm now md id etype path size).totalSize ≤ cm.maxSize)
    ∧ ((∃ e ∈ md.entries, e.id = id) →
      (addEntry cm now md id etype path size).totalSize = md.totalSize) := by
  constructor
  · intro hfresh hmax
    have hnone : touchEntries id now md.entries = none :=
      (touchEntries_none_iff id now md.entries).mpr hfresh
    simp only [addEntry, hnone]
    by_cases hover : cm.maxSize < md.totalSize + size
    · rw [if_pos hover]
      exact cleanup_totalSize_le cm now _ hmax
    · rw [if_neg hover]
      show md.totalSize + size ≤ cm.maxSize
      omega
  · rintro ⟨e, he, hid⟩
    cases htouch : touchEntries id now md.entries with
    | none =>
      exact absurd hid ((touchEntries_none_iff id now md.entries).mp htouch e he)
    | some es =>
      simp only [addEntry, htouch]

/-- C2 witness: adding a fresh 20-byte entry to an empty ledger with
max_size 10 ends with persisted total_size at most 10 (the entry evicts
itself), and touching the over-limit ledger mdTouch leaves its total
unchanged. -/
theorem addEntry_eviction_bound_witness :
    ((∀ e ∈ emptyMetadata.entries, e.id ≠ "a") ∧ 0 ≤ cmTouch.maxSize ∧
      (addEntry cmTouch 0 emptyMetadata "a" "email" "/a" 20).totalSize ≤ cmTouch.maxSize) ∧
    ((∃ e ∈ mdTouch.entries, e.id = "a") ∧
      (addEntry cmTouch 5 mdTouch "a" "email" "/a" 20).totalSize = mdTouch.totalSize) :=
  ⟨⟨by decide, by decide,
      (addEntry_eviction_bound cmTouch 0 emptyMetadata "a" "email" "/a" 20).1
        (by decide) (by decide)⟩,
   ⟨by decide,
      (addEntry_eviction_bound cmTouch 5 mdTouch "a" "email" "/a" 20).2 (by decide)⟩⟩

/-- C2 counterexample: the ledger mdTouch loads with total_size 20 over
max_size 10; an add_or_touch of the existing id a persists total_size 20,
still over the bound, because the refresh branch never runs eviction. -/
theorem addEntry_touch_over_limit_cex :
    (∃ e ∈ mdTouch.entries, e.id = "a") ∧
    cmTouch.maxSize < mdTouch.totalSize ∧
    cmTouch.maxSize < (addEntry cmTouch 5 mdTouch "a" "email" "/a" 20).totalSize := by
  decide

/-! ## Claim C3: the total_size bookkeeping invariant -/

theorem runOps_preserves_inv (cm : CacheManager) (ops : List AddOp) :
    ∀ md : CacheMetadata, md.totalSize = sumSizes md.entries →
      (runOps cm md ops).totalSize = sumSizes (runOps cm md ops).entries := by
  induction ops with
  | nil => intro md h; simpa [runOps] using h
  | cons op rest ih =>
    intro md h
    exact ih _ (addEntry_totalSize_inv cm op.now md op.id op.entryType op.filePath op.size h)

/-- C3: after any sequence of add_or_touch calls starting from the empty
ledger, the recorded total_size equals the sum of the sizes of the
recorded entries. -/
theorem addOrTouch_totalSize_invariant (cm : CacheManager) (ops : List AddOp) :
    (runOps cm emptyMetadata ops).totalSize =
      sumSizes ((runOps cm emptyMetadata ops).entries) :=
  runOps_preserves_inv cm ops emptyMetadata rfl

/-! ## Association list and scan lemmas -/

theorem alookup_mem {α : Type} {k : String} {v : α} :
    ∀ {l : List (String × α)}, alookup k l = some v → (k, v) ∈ l := by
  intro l
  induction l with
  | nil => intro h; simp [alookup] at h
  | cons p rest ih =>
    intro h
    obtain ⟨k2, v2⟩ := p
    simp only [alookup] at h
    by_cases hk : k2 = k
    · rw [if_pos hk] at h
      cases h
      subst hk
      exact List.mem_cons_self _ _
    · rw [if_neg hk] at h
      exact List.mem_cons_of_mem _ (ih h)

theorem alookup_eq_none_iff {α : Type} {k : String} {l : List (String × α)} :
    alookup k l = none ↔ ∀ v, (k, v) ∉ l := by
  induction l with
  | nil => simp [alookup]
  | cons p rest ih =>
    obtain ⟨k2, v2⟩ := p
    simp only [alookup]
    by_cases hk : k2 = k
    · subst hk
      simp only [if_pos rfl]
      constructor
      · intro h; cases h
      · intro h
        exact absurd (List.mem_cons_self _ _) (h v2)
    · simp only [if_neg hk, ih]
      constructor
      · intro h v hv
        rw [List.mem_cons] at hv
        rcases hv with hv | hv
        · exact hk (congrArg Prod.fst hv).symm
        · exact h v hv
      · intro h v hv
        exact h v (List.mem_cons_of_mem _ hv)

theorem alookup_of_mem_nodup {α : Type} {k : String} {v : α} :
    ∀ {l : List (String × α)}, (l.map Prod.fst).Nodup → (k, v) ∈ l →
      alookup k l = some v := by
  intro l
  induction l with
  | nil => intro _ h; cases h
  | cons p rest ih =>
    intro hnodup hmem
    obtain ⟨k2, v2⟩ := p
    rw [List.map_cons, List.nodup_cons] at hnodup
    rw [List.mem_cons] at hmem
    rcases hmem with hmem | hmem
    · cases hmem
      simp [alookup]
    · have hkne : k2 ≠ k := by
        intro hkk
        subst hkk
        exact hnodup.1 (List.mem_map.mpr ⟨(k2, v), hmem, rfl⟩)
      simp only [alookup, if_neg hkne]
      exact ih hnodup.2 hmem

theorem keyNodup_mem_eq {α : Type} {k : String} {v1 v2 : α} {l : List (String × α)}
    (hnodup : (l.map Prod.fst).Nodup) (h1 : (k, v1) ∈ l) (h2 : (k, v2) ∈ l) : v1 = v2 := by
  have e1 := alookup_of_mem_nodup hnodup h1
  have e2 := alookup_of_mem_nodup hnodup h2
  rw [e1] at e2
  cases e2
  rfl

theorem findByEmail_mem {em : String} {id : String} :
    ∀ {l : List (String × String)}, findByEmail em l = some id → (id, em) ∈ l := by
  intro l
  induction l with
  | nil => intro h; simp [findByEmail] at h
  | cons p rest ih =>
    intro h
    obtain ⟨i2, e2⟩ := p
    simp only [findByEmail] at h
    by_cases he : e2 = em
    · rw [if_pos he] at h
      cases h
      subst he
      exact List.mem_cons_self _ _
    · rw [if_neg he] at h
      exact List.mem_cons_of_mem _ (ih h)

theorem findByEmail_isSome_of_mem {em i : String} :
    ∀ {l : List (String × String)}, (i, em) ∈ l → ∃ j, findByEmail em l = some j := by
  intro l
  induction l with
  | nil => intro h; cases h
  | cons p rest ih =>
    intro hmem
    obtain ⟨i2, e2⟩ := p
    by_cases he : e2 = em
    · exact ⟨i2, by simp [findByEmail, if_pos he]⟩
    · rw [List.mem_cons] at hmem
      rcases hmem with hmem | hmem
      · exact absurd (congrArg Prod.snd hmem).symm he
      · obtain ⟨j, hj⟩ := ih hmem
        exact ⟨j, by simp [findByEmail, if_neg he, hj]⟩

theorem accounts_email_inj {accounts : List (String × String)}
    (hinj : accounts.Pairwise (fun a b => a.2 ≠ b.2)) {i1 i2 em : String}
    (h1 : (i1, em) ∈ accounts) (h2 : (i2, em) ∈ accounts) : i1 = i2 := by
  induction accounts with
  | nil => cases h1
  | cons p rest ih =>
    rw [List.pairwise_cons] at hinj
    rw [List.mem_cons] at h1 h2
    rcases h1 with h1 | h1
    · rcases h2 with h2 | h2
      · rw [← h2] at h1
        exact congrArg Prod.fst h1
      · have := hinj.1 (i2, em) h2
        rw [← h1] at this
        exact absurd rfl this
    · rcases h2 with h2 | h2
      · have := hinj.1 (i1, em) h1
        rw [← h2] at this
        exact absurd rfl this
      · exact ih hinj.2 h1 h2

theorem mem_foldersWithEmail {em n : String} :
    ∀ {folders : FolderMap},
      n ∈ foldersWithEmail em folders ↔ ∃ md, (n, md) ∈ folders ∧ md.emailAddress = em := by
  intro folders
  induction folders with
  | nil => simp [foldersWithEmail]
  | cons p rest ih =>
    obtain ⟨n2, md2⟩ := p
    by_cases he : md2.emailAddress = em
    · simp only [foldersWithEmail, if_pos he, List.mem_cons, ih]
      constructor
      · rintro (rfl | ⟨md3, hmem, hmd3⟩)
        · exact ⟨md2, Or.inl rfl, he⟩
        · exact ⟨md3, Or.inr hmem, hmd3⟩
      · rintro ⟨md3, hmem | hmem, hmd3⟩
        · exact Or.inl (congrArg Prod.fst hmem)
        · exact Or.inr ⟨md3, hmem, hmd3⟩
    · simp only [foldersWithEmail, if_neg he, ih]
      constructor
      · rintro ⟨md3, hmem, hmd3⟩
        exact ⟨md3, List.mem_cons_of_mem _ hmem, hmd3⟩
      · rintro ⟨md3, hmem, hmd3⟩
        rw [List.mem_cons] at hmem
        rcases hmem with hmem | hmem
        · cases hmem
          exact absurd hmd3 he
        · exact ⟨md3, hmem, hmd3⟩

theorem two_mem_le_length {α : Type} {a b : α} :
    ∀ {l : List α}, a ∈ l → b ∈ l → a ≠ b → 2 ≤ l.length := by
  intro l
  induction l with
  | nil => intro h; cases h
  | cons x rest ih =>
    intro ha hb hne
    rw [List.mem_cons] at ha hb
    rcases ha with rfl | ha
    · rcases hb with rfl | hb
      · exact absurd rfl hne
      · have : 1 ≤ rest.length := List.length_pos.mpr (List.ne_nil_of_mem hb)
        simpa using Nat.succ_le_succ this
    · have : 1 ≤ rest.length := List.length_pos.mpr (List.ne_nil_of_mem ha)
      simpa using Nat.succ_le_succ this

/-! ## newestFolder lemmas -/

theorem nextNewest_snd_mono (folders : FolderMap) (name : String) (acc : String × Int) :
    acc.2 ≤ (nextNewest folders name acc).2 := by
  unfold nextNewest
  cases halo : alookup name folders with
  | none => exact le_refl _
  | some om =>
    show acc.2 ≤ (if acc.2 < om.updatedAt then (name, om.updatedAt) else acc).2
    by_cases hlt : acc.2 < om.updatedAt
    · rw [if_pos hlt]
      exact le_of_lt hlt
    · rw [if_neg hlt]

theorem newestFolder_snd_mono (folders : FolderMap) :
    ∀ (l : List String) (acc : String × Int), acc.2 ≤ (newestFolder folders l acc).2 := by
  intro l
  induction l with
  | nil => intro acc; exact le_refl _
  | cons name rest ih =>
    intro acc
    exact le_trans (nextNewest_snd_mono folders name acc) (ih (nextNewest folders name acc))

theorem nextNewest_ge (folders : FolderMap) (name : String) (om : AccountMetadata)
    (acc : String × Int) (halo : alookup name folders = some om) :
    om.updatedAt ≤ (nextNewest folders name acc).2 := by
  unfold nextNewest
  rw [halo]
  show om.updatedAt ≤ (if acc.2 < om.updatedAt then (name, om.updatedAt) else acc).2
  by_cases hlt : acc.2 < om.updatedAt
  · rw [if_pos hlt]
  · rw [if_neg hlt]
    exact not_lt.mp hlt

theorem newestFolder_ge_members (folders : FolderMap) :
    ∀ (l : List String) (acc : String × Int) (name : String) (om : AccountMetadata),
      name ∈ l → alookup name folders = some om →
      om.updatedAt ≤ (newestFolder folders l acc).2 := by
  intro l
  induction l with
  | nil => intro acc name om h; cases h
  | cons nm rest ih =>
    intro acc name om hmem halo
    rw [List.mem_cons] at hmem
    rcases hmem with rfl | hmem
    · exact le_trans (nextNewest_ge folders name om acc halo)
        (newestFolder_snd_mono folders rest _)
    · exact ih _ name om hmem halo

theorem newestFolder_no_update (folders : FolderMap) :
    ∀ (l : List String) (acc : String × Int),
      (∀ name ∈ l, ∀ om : AccountMetadata,
        alookup name folders = some om → om.updatedAt ≤ acc.2) →
      newestFolder folders l acc = acc := by
  intro l
  induction l with
  | nil => intro acc _; rfl
  | cons nm rest ih =>
    intro acc hall
    have hstep : nextNewest folders nm acc = acc := by
      unfold nextNewest
      cases halo : alookup nm folders with
      | none => rfl
      | some om =>
        have hle : om.updatedAt ≤ acc.2 := hall nm (List.mem_cons_self _ _) om halo
        show (if acc.2 < om.updatedAt then (nm, om.updatedAt) else acc) = acc
        rw [if_neg (not_lt.mpr hle)]
    show newestFolder folders rest (nextNewest folders nm acc) = acc
    rw [hstep]
    exact ih acc (fun name hn om h => hall name (List.mem_cons_of_mem _ hn) om h)

theorem newestFolder_fst_fixed {folders : FolderMap}
    (hnodup : (folders.map Prod.fst).Nodup) {n : String} {md : AccountMetadata}
    (hmem : (n, md) ∈ folders) :
    ∀ (l : List String) (acc : String × Int),
      md.updatedAt ≤ acc.2 → (acc.1 = n → acc.2 = md.updatedAt) →
      (newestFolder folders l acc).1 = n → (newestFolder folders l acc).2 = md.updatedAt := by
  intro l
  induction l with
  | nil =>
    intro acc _ h2 hfst
    exact h2 hfst
  | cons nm rest ih =>
    intro acc h1 h2 hfst
    have h1b : md.updatedAt ≤ (nextNewest folders nm acc).2 :=
      le_trans h1 (nextNewest_snd_mono folders nm acc)
    have h2b : (nextNewest folders nm acc).1 = n → (nextNewest folders nm acc).2 = md.updatedAt := by
      unfold nextNewest
      cases halo : alookup nm folders with
      | none => exact h2
      | some om =>
        show (if acc.2 < om.updatedAt then (nm, om.updatedAt) else acc).1 = n →
          (if acc.2 < om.updatedAt then (nm, om.updatedAt) else acc).2 = md.updatedAt
        by_cases hlt : acc.2 < om.updatedAt
        · rw [if_pos hlt]
          intro hnm
          have hnm2 : nm = n := hnm
          subst hnm2
          have hom : om = md := keyNodup_mem_eq hnodup (alookup_mem halo) hmem
          rw [hom]
        · rw [if_neg hlt]
          exact h2
    exact ih (nextNewest folders nm acc) h1b h2b hfst

/-! ## folderPlan and DetectMigrations lemmas -/

theorem folderPlan_provenance {folders : FolderMap} {accounts : List (String × String)}
    {n : String} {md : AccountMetadata} {p : MigrationPlan}
    (h : folderPlan folders accounts n md = some p) :
    p.oldFolderName = n ∧ p.emailAddress = md.emailAddress ∧ p.metadata = md ∧
    findByEmail md.emailAddress accounts = some p.newAccountID ∧ p.newAccountID ≠ n := by
  unfold folderPlan at h
  split at h
  · exact absurd h (by simp)
  · split at h
    · exact absurd h (by simp)
    · rename_i matching hfind
      split at h
      · exact absurd h (by simp)
      · rename_i hne
        split at h
        · split at h
          · rw [Option.some_inj] at h
            subst h
            exact ⟨rfl, rfl, rfl, hfind, hne⟩
          · exact absurd h (by simp)
        · rw [Option.some_inj] at h
          subst h
          exact ⟨rfl, rfl, rfl, hfind, hne⟩

theorem folderPlan_some_iff {folders : FolderMap} {accounts : List (String × String)}
    {n : String} {md : AccountMetadata}
    (hnodup : (folders.map Prod.fst).Nodup)
    (hinj : accounts.Pairwise (fun a b => a.2 ≠ b.2))
    (hmem : (n, md) ∈ folders) :
    (∃ p, folderPlan folders accounts n md = some p) ↔
      ((∃ q ∈ accounts, q.2 = md.emailAddress ∧ q.1 ≠ n) ∧
       (∀ q ∈ folders, q.2.emailAddress = md.emailAddress →
         q.2.updatedAt ≤ md.updatedAt)) := by
  constructor
  · rintro ⟨p, hp⟩
    unfold folderPlan at hp
    split at hp
    · exact absurd hp (by simp)
    · split at hp
      · exact absurd hp (by simp)
      · rename_i matching hfind
        split at hp
        · exact absurd hp (by simp)
        · rename_i hne
          have hmm : (matching, md.emailAddress) ∈ accounts := findByEmail_mem hfind
          refine ⟨⟨(matching, md.emailAddress), hmm, rfl, hne⟩, ?_⟩
          split at hp
          · rename_i hlen
            split at hp
            · rename_i hnewest
              intro q hq hqe
              have hq2 : q.1 ∈ foldersWithEmail md.emailAddress folders :=
                mem_foldersWithEmail.mpr ⟨q.2, hq, hqe⟩
              have halo : alookup q.1 folders = some q.2 :=
                alookup_of_mem_nodup hnodup hq
              have hge := newestFolder_ge_members folders
                (foldersWithEmail md.emailAddress folders) (n, md.updatedAt) q.1 q.2 hq2 halo
              have hfix := newestFolder_fst_fixed hnodup hmem
                (foldersWithEmail md.emailAddress folders) (n, md.updatedAt)
                (le_refl _) (fun _ => rfl) hnewest.symm
              rw [hfix] at hge
              exact hge
            · exact absurd hp (by simp)
          · rename_i hlen
            intro q hq hqe
            by_cases hqn : q.1 = n
            · have hq2 : (n, q.2) ∈ folders := by
                rw [← hqn]
                exact hq
              have : q.2 = md := keyNodup_mem_eq hnodup hq2 hmem
              rw [this]
            · exfalso
              have h1 : n ∈ foldersWithEmail md.emailAddress folders :=
                mem_foldersWithEmail.mpr ⟨md, hmem, rfl⟩
              have h2 : q.1 ∈ foldersWithEmail md.emailAddress folders :=
                mem_foldersWithEmail.mpr ⟨q.2, hq, hqe⟩
              exact hlen (two_mem_le_length h2 h1 hqn)
  · rintro ⟨⟨q, hq, hqe, hqn⟩, hrival⟩
    have hqmem : (q.1, md.emailAddress) ∈ accounts := by
      rw [← hqe]
      exact hq
    obtain ⟨j, hj⟩ := findByEmail_isSome_of_mem hqmem
    have hjmem : (j, md.emailAddress) ∈ accounts := findByEmail_mem hj
    have hji : j = q.1 := accounts_email_inj hinj hjmem hqmem
    have hjn : ¬ j = n := hji ▸ hqn
    have hguard : ¬ (n = md.accountID ∧
        alookup md.accountID accounts = some md.emailAddress) := by
      rintro ⟨hna, halo⟩
      have hacc : (md.accountID, md.emailAddress) ∈ accounts := alookup_mem halo
      have : md.accountID = j := accounts_email_inj hinj hacc hjmem
      exact hjn (this ▸ hna.symm)
    unfold folderPlan
    rw [if_neg hguard, hj]
    show ∃ p, (if j = n then none else _) = some p
    rw [if_neg hjn]
    by_cases hlen : 1 < (foldersWithEmail md.emailAddress folders).length
    · rw [if_pos hlen]
      have hnoup : newestFolder folders (foldersWithEmail md.emailAddress folders)
          (n, md.updatedAt) = (n, md.updatedAt) := by
        refine newestFolder_no_update folders _ _ ?_
        intro name hn om halo
        obtain ⟨md2, hmd2, hmd2e⟩ := mem_foldersWithEmail.mp hn
        have : om = md2 := by
          have h2 := alookup_of_mem_nodup hnodup hmd2
          rw [halo] at h2
          cases h2
          rfl
        subst this
        exact hrival (name, om) hmd2 hmd2e
      rw [if_pos (by rw [hnoup])]
      exact ⟨_, rfl⟩
    · rw [if_neg hlen]
      exact ⟨_, rfl⟩

theorem mem_detectAux {allF : FolderMap} {accounts : List (String × String)}
    {p : MigrationPlan} :
    ∀ {l : FolderMap}, p ∈ detectMigrationsAux allF accounts l ↔
      ∃ q ∈ l, folderPlan allF accounts q.1 q.2 = some p := by
  intro l
  induction l with
  | nil => simp [detectMigrationsAux]
  | cons q rest ih =>
    obtain ⟨n2, md2⟩ := q
    simp only [detectMigrationsAux]
    cases hfp : folderPlan allF accounts n2 md2 with
    | some p2 =>
      simp only [List.mem_cons]
      constructor
      · rintro (rfl | hmem)
        · exact ⟨(n2, md2), Or.inl rfl, hfp⟩
        · obtain ⟨q2, hq2, hfp2⟩ := ih.mp hmem
          exact ⟨q2, Or.inr hq2, hfp2⟩
      · rintro ⟨q2, hq2, hfp2⟩
        rcases hq2 with rfl | hq2
        · have h3 : folderPlan allF accounts n2 md2 = some p := hfp2
          rw [hfp] at h3
          cases h3
          exact Or.inl rfl
        · exact Or.inr (ih.mpr ⟨q2, hq2, hfp2⟩)
    | none =>
      simp only [List.mem_cons]
      constructor
      · intro hmem
        obtain ⟨q2, hq2, hfp2⟩ := ih.mp hmem
        exact ⟨q2, Or.inr hq2, hfp2⟩
      · rintro ⟨q2, hq2, hfp2⟩
        rcases hq2 with rfl | hq2
        · have h3 : folderPlan allF accounts n2 md2 = some p := hfp2
          rw [hfp] at h3
          cases h3
        · exact ih.mpr ⟨q2, hq2, hfp2⟩

/-! ## Claim C4: the migration planner decision rule -/

/-- C4 (amended): assuming the scanned folders have distinct names and no
two configured accounts share an email, the planner emits a plan for
folder F exactly when some configured account id has the same email as
F's record and differs from F's name, and no other folder sharing that
email has a strictly later updated_at; folders whose email matches no
configured account yield no plan.  (With an exact updated_at tie between
folders sharing an email, each tied folder satisfies the rule, so more
than one plan can be emitted for the same email.) -/
theorem detectMigrations_iff (folders : FolderMap) (accounts : List (String × String))
    (n : String) (md : AccountMetadata)
    (hnodup : (folders.map Prod.fst).Nodup)
    (hinj : accounts.Pairwise (fun a b => a.2 ≠ b.2))
    (hmem : (n, md) ∈ folders) :
    (∃ p ∈ detectMigrations folders accounts, p.oldFolderName = n) ↔
      ((∃ q ∈ accounts, q.2 = md.emailAddress ∧ q.1 ≠ n) ∧
       (∀ q ∈ folders, q.2.emailAddress = md.emailAddress →
         q.2.updatedAt ≤ md.updatedAt)) := by
  constructor
  · rintro ⟨p, hp, hold⟩
    obtain ⟨q, hq, hfp⟩ := mem_detectAux.mp hp
    have h1 : q.1 = n := by
      rw [← (folderPlan_provenance hfp).1]
      exact hold
    have hq2 : (n, q.2) ∈ folders := by
      rw [← h1]
      exact hq
    have h2 : q.2 = md := keyNodup_mem_eq hnodup hq2 hmem
    rw [h1, h2] at hfp
    exact (folderPlan_some_iff hnodup hinj hmem).mp ⟨p, hfp⟩
  · intro hrhs
    obtain ⟨p, hp⟩ := (folderPlan_some_iff hnodup hinj hmem).mpr hrhs
    exact ⟨p, mem_detectAux.mpr ⟨(n, md), hmem, hp⟩, (folderPlan_provenance hp).1⟩

/-- C4 witness: in the two-folder conflict scenario (Business and
Business_Old share x@y.com, Business_Old updated later, config maps
Operations to that email) the decision rule instance holds, and from its
right-hand side the planner indeed emits a plan for Business_Old. -/
theorem detectMigrations_iff_witness :
    ((∃ p ∈ detectMigrations foldersConflict accountsOps,
        p.oldFolderName = "Business_Old") ↔
      ((∃ q ∈ accountsOps, q.2 = metaBizOld.emailAddress ∧ q.1 ≠ "Business_Old") ∧
       (∀ q ∈ foldersConflict, q.2.emailAddress = metaBizOld.emailAddress →
         q.2.updatedAt ≤ metaBizOld.updatedAt))) ∧
    (∃ p ∈ detectMigrations foldersConflict accountsOps,
      p.oldFolderName = "Business_Old") :=
  ⟨detectMigrations_iff foldersConflict accountsOps "Business_Old" metaBizOld
      (by decide) (by decide) (by decide),
   (detectMigrations_iff foldersConflict accountsOps "Business_Old" metaBizOld
      (by decide) (by decide) (by decide)).mpr ⟨by decide, by decide⟩⟩

/-- C4 counterexample: folders F1 and F2 share email x with exactly tied
updated_at; the planner emits a plan for each of them, so two plans share
one email and neither folder is the unique latest. -/
theorem detectMigrations_tie_cex :
    detectMigrations foldersTie accountsTie =
      [⟨"F1", "NEW", "x", metaTieF1⟩, ⟨"F2", "NEW", "x", metaTieF2⟩] ∧
    metaTieF1.emailAddress = metaTieF2.emailAddress ∧
    metaTieF1.updatedAt = metaTieF2.updatedAt := by
  decide

/-! ## Filesystem and scan lemmas for the executor -/

theorem scan_append (l1 l2 : Fs) :
    scanExistingFolders (l1 ++ l2) = scanExistingFolders l1 ++ scanExistingFolders l2 := by
  induction l1 with
  | nil => rfl
  | cons p rest ih =>
    obtain ⟨n, f⟩ := p
    cases hm : f.meta with
    | some m => simp [scanExistingFolders, hm, ih]
    | none => simp [scanExistingFolders, hm, ih]

theorem mem_scan {k : String} {m : AccountMetadata} :
    ∀ {l : Fs}, (k, m) ∈ scanExistingFolders l → ∃ f, (k, f) ∈ l ∧ f.meta = some m := by
  intro l
  induction l with
  | nil => intro h; cases h
  | cons p rest ih =>
    intro h
    obtain ⟨n, f⟩ := p
    cases hm : f.meta with
    | some m2 =>
      rw [scanExistingFolders, hm, List.mem_cons] at h
      rcases h with h | h
      · cases h
        exact ⟨f, List.mem_cons_self _ _, hm⟩
      · obtain ⟨f2, hf2, hmf2⟩ := ih h
        exact ⟨f2, List.mem_cons_of_mem _ hf2, hmf2⟩
    | none =>
      rw [scanExistingFolders, hm] at h
      obtain ⟨f2, hf2, hmf2⟩ := ih h
      exact ⟨f2, List.mem_cons_of_mem _ hf2, hmf2⟩

theorem alookup_fsRemove_none {k k2 : String} :
    ∀ {l : Fs}, alookup k l = none → alookup k (fsRemove k2 l) = none := by
  intro l
  induction l with
  | nil => intro _; rfl
  | cons p rest ih =>
    intro h
    obtain ⟨n, f⟩ := p
    rw [alookup] at h
    by_cases hk : n = k
    · rw [if_pos hk] at h
      cases h
    · rw [if_neg hk] at h
      rw [fsRemove]
      by_cases hk2 : n = k2
      · rw [if_pos hk2]
        exact h
      · rw [if_neg hk2, alookup, if_neg hk]
        exact ih h

theorem fsSetMeta_append_fresh {k : String} {m : AccountMetadata} {f : Folder} :
    ∀ {l1 : Fs}, alookup k l1 = none →
      fsSetMeta k m (l1 ++ [(k, f)]) = l1 ++ [(k, { f with meta := some m })] := by
  intro l1
  induction l1 with
  | nil =>
    intro _
    simp [fsSetMeta]
  | cons p rest ih =>
    intro h
    obtain ⟨n, f2⟩ := p
    rw [alookup] at h
    by_cases hk : n = k
    · rw [if_pos hk] at h
      cases h
    · rw [if_neg hk] at h
      rw [List.cons_append, fsSetMeta, if_neg hk, ih h, List.cons_append]

theorem fsHas_eq_false {fs : Fs} {k : String} (h : ¬ fsHas fs k = true) :
    alookup k fs = none := by
  unfold fsHas at h
  cases halo : alookup k fs with
  | none => rfl
  | some f =>
    rw [halo] at h
    simp at h

/-! ## Claim C5: idempotence of a successful migration -/

/-- C5: if the planner produced a plan from the scanned folders and the
executor then succeeded on it, re-running the planner on the resulting
filesystem with the same configuration yields no plan whose source is the
migrated folder (now named by the new account id). -/
theorem migration_idempotent (fs : Fs) (accounts : List (String × String)) (now : Int)
    (plan : MigrationPlan) (fs2 : Fs)
    (hplan : plan ∈ detectMigrations (scanExistingFolders fs) accounts)
    (hexec : executeMigration fs now plan = (none, fs2)) :
    ∀ q ∈ detectMigrations (scanExistingFolders fs2) accounts,
      q.oldFolderName ≠ plan.newAccountID := by
  obtain ⟨q0, hq0, hfp0⟩ := mem_detectAux.mp hplan
  have hfind0 : findByEmail plan.emailAddress accounts = some plan.newAccountID := by
    have hprov := folderPlan_provenance hfp0
    rw [hprov.2.1]
    exact hprov.2.2.2.1
  unfold executeMigration at hexec
  split at hexec
  · exact absurd (congrArg Prod.fst hexec) (by simp)
  · rename_i f halo
    split at hexec
    · exact absurd (congrArg Prod.fst hexec) (by simp)
    · rename_i hdest
      have halo2 : alookup plan.newAccountID fs = none := fsHas_eq_false hdest
      have hfs2 : fs2 = fsSetMeta plan.newAccountID
          (writeAccountMetadata now plan.newAccountID plan.emailAddress f.meta)
          (fsRemove plan.oldFolderName fs ++ [(plan.newAccountID, f)]) :=
        (congrArg Prod.snd hexec).symm
      have hset := @fsSetMeta_append_fresh plan.newAccountID
        (writeAccountMetadata now plan.newAccountID plan.emailAddress f.meta) f
        (fsRemove plan.oldFolderName fs)
        (@alookup_fsRemove_none plan.newAccountID plan.oldFolderName fs halo2)
      rw [hset] at hfs2
      have hscan : scanExistingFolders fs2 =
          scanExistingFolders (fsRemove plan.oldFolderName fs) ++
            [(plan.newAccountID,
              writeAccountMetadata now plan.newAccountID plan.emailAddress f.meta)] := by
        rw [hfs2, scan_append]
        rfl
      intro q hq hcontra
      obtain ⟨q2, hq2, hfp⟩ := mem_detectAux.mp hq
      have hq2old : q.oldFolderName = q2.1 := (folderPlan_provenance hfp).1
      have hq21 : q2.1 = plan.newAccountID := by
        rw [← hq2old]
        exact hcontra
      rw [hscan, List.mem_append] at hq2
      rcases hq2 with hq2 | hq2
      · have hpair : (plan.newAccountID, q2.2) ∈
            scanExistingFolders (fsRemove plan.oldFolderName fs) := by
          rw [← hq21]
          exact hq2
        obtain ⟨f2, hf2, _⟩ := mem_scan hpair
        exact alookup_eq_none_iff.mp (alookup_fsRemove_none halo2) f2 hf2
      · rw [List.mem_singleton] at hq2
        have hfp2 : folderPlan (scanExistingFolders fs2) accounts plan.newAccountID
            (writeAccountMetadata now plan.newAccountID plan.emailAddress f.meta) = some q := by
          have he1 : q2.1 = plan.newAccountID := congrArg Prod.fst hq2
          have he2 : q2.2 = writeAccountMetadata now plan.newAccountID plan.emailAddress f.meta :=
            congrArg Prod.snd hq2
          rw [← he2, ← he1]
          exact hfp
        have hprov2 := folderPlan_provenance hfp2
        have hfind2 : findByEmail plan.emailAddress accounts = some q.newAccountID :=
          hprov2.2.2.2.1
        rw [hfind0] at hfind2
        exact hprov2.2.2.2.2 (Option.some_inj.mp hfind2).symm

/-- C5 witness: the Business folder is planned for migration to
Operations, the executor succeeds, and re-running the planner on the
migrated filesystem yields no plan sourced at the Operations folder. -/
theorem migration_idempotent_witness :
    ¬ ∃ q ∈ detectMigrations
        (scanExistingFolders (executeMigration fsBusiness 100 planOps).2) accountsOps,
      q.oldFolderName = planOps.newAccountID := by
  rintro ⟨q, hq, hqe⟩
  exact migration_idempotent fsBusiness accountsOps 100 planOps
    (executeMigration fsBusiness 100 planOps).2 (by decide) (by decide) q hq hqe

/-! ## Claim C6: executor precondition failures leave the filesystem intact -/

/-- C6: when the source folder is missing the executor reports a
source-missing error, when the source exists but the destination is
already present it reports a destination-exists error, and in every error
outcome the returned filesystem is exactly the input: no rename, partial
or complete, has occurred. -/
theorem executeMigration_precondition (fs : Fs) (now : Int) (plan : MigrationPlan) :
    (alookup plan.oldFolderName fs = none →
      executeMigration fs now plan = (some (.sourceMissing plan.oldFolderName), fs)) ∧
    (∀ f, alookup plan.oldFolderName fs = some f → fsHas fs plan.newAccountID = true →
      executeMigration fs now plan = (some (.destExists plan.newAccountID), fs)) ∧
    (∀ err fs2, executeMigration fs now plan = (some err, fs2) → fs2 = fs) := by
  refine ⟨?_, ?_, ?_⟩
  · intro h
    simp [executeMigration, h]
  · intro f hsrc hdest
    simp [executeMigration, hsrc, hdest]
  · intro err fs2 h
    unfold executeMigration at h
    split at h
    · exact (congrArg Prod.snd h).symm
    · split at h
      · exact (congrArg Prod.snd h).symm
      · exact absurd (congrArg Prod.fst h) (by simp)

/-- C6 witness: with only the Business folder on disk, executing a plan
whose source Missing folder does not exist fails with a source-missing
error and returns the filesystem unchanged; executing a plan whose
destination Business already exists fails with a destination-exists error
and returns the filesystem unchanged. -/
theorem executeMigration_precondition_witness :
    (executeMigration fsBusiness 100 ⟨"Missing", "Operations", "x@y.com", metaBusiness⟩ =
      (some (.sourceMissing "Missing"), fsBusiness)) ∧
    (executeMigration fsBusiness 100 ⟨"Business", "Business", "x@y.com", metaBusiness⟩ =
      (some (.destExists "Business"), fsBusiness)) :=
  ⟨(executeMigration_precondition fsBusiness 100
      ⟨"Missing", "Operations", "x@y.com", metaBusiness⟩).1 (by decide),
   (executeMigration_precondition fsBusiness 100
      ⟨"Business", "Business", "x@y.com", metaBusiness⟩).2.1
     { meta := some metaBusiness, files := ["drafts"] } (by decide) (by decide)⟩

/-! ## Chunk-read lemmas -/

theorem clampNeg_eq_max (x : Int) : clampNeg x = max 0 x := by
  unfold clampNeg
  split <;> omega

theorem clampNeg_eq_zero_iff (x : Int) : clampNeg x = 0 ↔ x ≤ 0 := by
  unfold clampNeg
  split <;> omega

theorem readFileChunk_nonneg (file : List Nat) (o L : Int) (ho : 0 ≤ o) (hL : 0 ≤ L) :
    readFileChunk file o L = .ok ((file.drop o.toNat).take L.toNat) := by
  unfold readFileChunk
  rw [if_neg (not_lt.mpr hL)]
  by_cases hpos : 0 < o
  · rw [if_pos hpos]
  · rw [if_neg hpos]
    have h0 : o = 0 := le_antisymm (not_lt.mp hpos) ho
    rw [h0]

theorem readBodyFile_nonneg (file : List Nat) (fmt src : String) (T o L : Int)
    (ho : 0 ≤ o) (hL : 0 ≤ L) :
    readBodyFile file fmt src T o L = .ok
      { content := (file.drop o.toNat).take L.toNat, format := fmt, source := src,
        totalSize := T, offset := o, limit := L,
        remaining := clampNeg (T - o - (((file.drop o.toNat).take L.toNat).length : Int)),
        isComplete :=
          decide (clampNeg (T - o - (((file.drop o.toNat).take L.toNat).length : Int)) = 0) } := by
  unfold readBodyFile
  rw [readFileChunk_nonneg file o L ho hL]

theorem drop_take_eq_byteSlice (file : List Nat) (o L : Int) (ho : 0 ≤ o) (hL : 0 ≤ L) :
    (file.drop o.toNat).take L.toNat = byteSlice file o (min (o + L) (file.length : Int)) := by
  unfold byteSlice
  rw [List.drop_take]
  refine List.take_eq_take.mpr ?_
  rw [List.length_drop]
  omega

theorem readLoop_succ_eq (file : List Nat) (L : Int) (fuel o : Nat) (hL0 : 0 ≤ L) :
    readLoop file L (fuel + 1) o =
      if clampNeg ((file.length : Int) - (o : Int) -
          (((file.drop o).take L.toNat).length : Int)) = 0 then
        some [(file.drop o).take L.toNat]
      else
        match readLoop file L fuel (o + ((file.drop o).take L.toNat).length) with
        | some rest => some ((file.drop o).take L.toNat :: rest)
        | none => none := by
  have hread := readBodyFile_nonneg file "text" "text_body" (file.length : Int)
    (o : Int) L (Int.natCast_nonneg o) hL0
  rw [Int.toNat_natCast] at hread
  simp only [readLoop, hread]
  by_cases hc : clampNeg ((file.length : Int) - (o : Int) -
      (((file.drop o).take L.toNat).length : Int)) = 0
  · rw [if_pos (decide_eq_true hc), if_pos hc]
  · rw [if_neg (fun h => hc (of_decide_eq_true h)), if_neg hc]

theorem readLoop_complete (file : List Nat) (L : Int) (hL : 1 ≤ L) :
    ∀ (fuel o : Nat), o ≤ file.length → file.length - o < fuel →
      ∃ chunks, readLoop file L fuel o = some chunks ∧ chunks.flatten = file.drop o := by
  intro fuel
  induction fuel with
  | zero =>
    intro o _ hfuel
    omega
  | succ fuel ih =>
    intro o ho hfuel
    have hL0 : 0 ≤ L := le_trans (by norm_num) hL
    have hclen : ((file.drop o).take L.toNat).length = min L.toNat (file.length - o) := by
      rw [List.length_take, List.length_drop]
    have hremiff : (clampNeg ((file.length : Int) - (o : Int) -
        (((file.drop o).take L.toNat).length : Int)) = 0) ↔
        file.length ≤ o + ((file.drop o).take L.toNat).length := by
      rw [clampNeg_eq_zero_iff]
      omega
    rw [readLoop_succ_eq file L fuel o hL0]
    by_cases hdone : file.length ≤ o + ((file.drop o).take L.toNat).length
    · rw [if_pos (hremiff.mpr hdone)]
      have hall : (file.drop o).take L.toNat = file.drop o :=
        List.take_of_length_le (by rw [List.length_drop]; omega)
      exact ⟨[(file.drop o).take L.toNat], rfl, by simp [hall]⟩
    · rw [if_neg (fun h => hdone (hremiff.mp h))]
      have hlen : ((file.drop o).take L.toNat).length = L.toNat := by
        rw [hclen]
        omega
      have hLpos : 1 ≤ L.toNat := by omega
      obtain ⟨rest, hrest, hflat⟩ :=
        ih (o + ((file.drop o).take L.toNat).length) (by omega) (by omega)
      rw [hrest]
      refine ⟨(file.drop o).take L.toNat :: rest, rfl, ?_⟩
      rw [List.flatten_cons, hflat, hlen]
      have h2 : List.drop L.toNat (List.drop o file) = List.drop (o + L.toNat) file :=
        List.drop_drop L.toNat o file
      rw [← h2]
      exact List.take_append_drop L.toNat (List.drop o file)

/-! ## Claim C7: chunk-read contract and chunked-read completeness -/

/-- C7 (amended): for a cached body file whose recorded total size equals
its length, a chunk read at offset o ≥ 0 with limit L ≥ 0 returns the
bytes in [o, min(o+L, T)) with remaining = max(0, T − o − returned_length)
and is_complete exactly when remaining = 0; and for L ≥ 1 (the amendment:
with L = 0 on a nonempty body the iteration never advances) repeatedly
reading from offset 0 and advancing by the returned length until
is_complete yields chunks whose concatenation is the full body, of
length T. -/
theorem readBody_chunk_contract (file : List Nat) (fmt src : String) (o L : Int) :
    (0 ≤ o → 0 ≤ L →
      ∃ r, readBodyFile file fmt src (file.length : Int) o L = .ok r ∧
        r.content = byteSlice file o (min (o + L) (file.length : Int)) ∧
        r.remaining = max 0 ((file.length : Int) - o - (r.content.length : Int)) ∧
        (r.isComplete = true ↔ r.remaining = 0)) ∧
    (1 ≤ L →
      ∃ chunks, readLoop file L (file.length + 1) 0 = some chunks ∧
        chunks.flatten = file ∧ (chunks.flatten).length = file.length) := by
  constructor
  · intro ho hL
    refine ⟨_, readBodyFile_nonneg file fmt src (file.length : Int) o L ho hL, ?_, ?_, ?_⟩
    · exact drop_take_eq_byteSlice file o L ho hL
    · exact clampNeg_eq_max _
    · simp only [decide_eq_true_eq]
  · intro hL
    obtain ⟨chunks, hloop, hflat⟩ :=
      readLoop_complete file L hL (file.length + 1) 0 (Nat.zero_le _) (by omega)
    rw [List.drop_zero] at hflat
    exact ⟨chunks, hloop, hflat, by rw [hflat]⟩

/-- C7 witness: for the 3-byte body, reading at offset 1 with limit 1
returns byte [1,2) with remaining 1 and incomplete; and with limit 2 the
iteration from offset 0 terminates with chunks concatenating to the body. -/
theorem readBody_chunk_contract_witness :
    ((∃ r, readBodyFile [10, 20, 30] "text" "text_body" 3 1 1 = .ok r ∧
        r.content = byteSlice [10, 20, 30] 1 (min (1 + 1) 3) ∧
        r.remaining = max 0 (3 - 1 - (r.content.length : Int)) ∧
        (r.isComplete = true ↔ r.remaining = 0))) ∧
    (∃ chunks, readLoop [10, 20, 30] 2 4 0 = some chunks ∧
        chunks.flatten = [10, 20, 30] ∧ (chunks.flatten).length = 3) :=
  ⟨(readBody_chunk_contract [10, 20, 30] "text" "text_body" 1 1).1 (by decide) (by decide),
   (readBody_chunk_contract [10, 20, 30] "text" "text_body" 1 2).2 (by decide)⟩

theorem readLoop_zero_limit_stuck : ∀ fuel : Nat, readLoop [7] 0 fuel 0 = none := by
  intro fuel
  induction fuel with
  | zero => rfl
  | succ fuel ih =>
    unfold readLoop
    rw [show readBodyFile [7] "text" "text_body" (([7] : List Nat).length : Int) ((0 : Nat) : Int) 0 =
        .ok { content := [], format := "text", source := "text_body", totalSize := 1,
              offset := 0, limit := 0, remaining := 1, isComplete := false } from rfl]
    show (match readLoop [7] 0 fuel (0 + ([] : List Nat).length) with
          | some rest => some (([] : List Nat) :: rest)
          | none => none) = none
    rw [show (0 + ([] : List Nat).length) = 0 from rfl, ih]

/-- C7 counterexample: with limit 0 on the one-byte body [7] every read at
offset 0 returns empty content and is_complete = false, so the iteration
advancing by the returned length never terminates: no number of steps
produces chunks, let alone ones concatenating to the body. -/
theorem readBody_chunk_zero_limit_cex :
    (readBodyFile [7] "text" "text_body" 1 0 0 =
      .ok { content := [], format := "text", source := "text_body", totalSize := 1,
            offset := 0, limit := 0, remaining := 1, isComplete := false }) ∧
    ¬ ∃ (fuel : Nat) (chunks : List (List Nat)),
        readLoop [7] 0 fuel 0 = some chunks ∧ chunks.flatten = [7] := by
  constructor
  · rfl
  · rintro ⟨fuel, chunks, hloop, _⟩
    rw [readLoop_zero_limit_stuck fuel] at hloop
    cases hloop

/-! ## Claim C8: expiry makes a message absent -/

/-- C8: once elapsed time since caching exceeds CacheExpiry (96 hours),
metadata load reports Expired; cache-info, body reads and the cached
check all load the metadata first, so they fail the same way and return
no content, regardless of the body files still present in the
directory. -/
theorem expired_reported_absent (h2t : List Nat → List Nat) (dir : EmailDirState)
    (md : CachedEmailMetadata) (now previewLength offset limit : Int) (fmt : String)
    (hmeta : dir.metaFile = some md)
    (hexp : cacheExpiry < now - md.cachedAt) :
    loadMetadata dir.metaFile now = .error .expired ∧
    getCacheInfo h2t dir now previewLength = .error .expired ∧
    readBody h2t dir now fmt offset limit = .error .expired ∧
    isCached dir now = false := by
  have hload : loadMetadata dir.metaFile now = .error .expired := by
    rw [hmeta]
    show (if cacheExpiry < now - md.cachedAt then Except.error CacheErr.expired
          else Except.ok md) = Except.error CacheErr.expired
    rw [if_pos hexp]
  refine ⟨hload, ?_, ?_, ?_⟩
  · unfold getCacheInfo
    rw [hload]
  · unfold readBody
    rw [hload]
  · unfold isCached
    rw [hload]

/-- C8 witness: the message cached at time 0, read one nanosecond past the
96-hour expiry: metadata load, cache-info, body read and the cached check
all report it absent although its text body file is present. -/
theorem expired_reported_absent_witness :
    loadMetadata dirExpired.metaFile (cacheExpiry + 1) = .error .expired ∧
    getCacheInfo id dirExpired (cacheExpiry + 1) 100 = .error .expired ∧
    readBody id dirExpired (cacheExpiry + 1) "text" 0 10 = .error .expired ∧
    isCached dirExpired (cacheExpiry + 1) = false :=
  expired_reported_absent id dirExpired _ (cacheExpiry + 1) 100 0 10 "text" rfl (by decide)

/-! ## Claim C9: invalid offset and limit are not validated -/

/-- C9 (code behavior at the failing inputs): on a cached, unexpired
3-byte message, read_email_body with limit −1 crashes with a runtime
panic (make with a negative length) instead of returning a validation
error, and with offset −5 it skips the seek, reads from position 0 and
returns the full content — with remaining 5 — instead of failing. -/
theorem readBody_negative_params :
    handleReadEmailBody id dirText 0 "text" 0 (-1) = .panicked ∧
    handleReadEmailBody id dirText 0 "text" (-5) 10 =
      .ok { content := [1, 2, 3], format := "text", source := "text_body", totalSize := 3,
            offset := -5, limit := 10, remaining := 5, isComplete := false } := by
  decide

/-! ## Claim C10: the cache id derivation is not injective -/

/-- C10: the distinct message ids a.b and a_b (dot versus underscore)
clean to the same cache id whatever the hash function, hence resolve to
the same cache directory, and saving the second message's metadata lands
on the very path where the first's metadata was written, overwriting it;
x@y and x_at_y collide the same way. -/
theorem generateCacheID_not_injective :
    ("a.b" : String) ≠ "a_b" ∧
    (∀ h : String → String, generateCacheID h "a.b" = generateCacheID h "a_b") ∧
    (∀ (h : String → String) (root : String),
      getEmailDir h root "a.b" = getEmailDir h root "a_b") ∧
    (∀ (h : String → String) (root m1 m2 : String) (store : List (String × String)),
      fsReadPath (saveEmailMetaFile h root "a_b" m2 (saveEmailMetaFile h root "a.b" m1 store))
        (emailMetadataPath h root "a.b") = some m2) ∧
    ("x@y" : String) ≠ "x_at_y" ∧
    (∀ h : String → String, generateCacheID h "x@y" = generateCacheID h "x_at_y") := by
  have hgen : ∀ h : String → String, generateCacheID h "a.b" = generateCacheID h "a_b" :=
    fun _ => rfl
  have hdir : ∀ (h : String → String) (root : String),
      getEmailDir h root "a.b" = getEmailDir h root "a_b" := by
    intro h root
    unfold getEmailDir
    rw [hgen h]
  have hpath : ∀ (h : String → String) (root : String),
      emailMetadataPath h root "a_b" = emailMetadataPath h root "a.b" := by
    intro h root
    unfold emailMetadataPath
    rw [hdir h root]
  refine ⟨by decide, hgen, hdir, ?_, by decide, fun _ => rfl⟩
  intro h root m1 m2 store
  unfold saveEmailMetaFile fsWrite fsReadPath
  rw [alookup, if_pos (hpath h root)]

end EmailMCP
